import Mathlib

/-!
Verification of the AG-UI protocol SDKs: event schema validation
(`packages/core/src/events.ts`), the deprecated-thinking backward-compatibility
middleware (`packages/client/src/middleware/backward-compatibility-0-0-45.ts`),
the event-application state machine (`defaultApplyEvents`), and the Ruby
serialization/encoding layer (`ag_ui_protocol`).
-/

namespace AgUi

/-! ## Event schema validation (events.ts)

The zod schemas for content events.  `TextMessageContentEventSchema` and
`ReasoningMessageContentEventSchema` both declare
`delta: z.string().refine((s) => s.length > 0, "Delta must not be an empty string")`
over a required `messageId: z.string()`. -/

/-- Fields of a content event relevant to schema validation: both the
`messageId` and `delta` wire fields may be absent (`none`) or present. -/
structure ContentEventFields where
  messageId : Option String
  delta : Option String
  deriving DecidableEq, Repr

/-- Validation of the delta field: `z.string()` requires the field to be
present and `.refine((s) => s.length > 0)` rejects the empty string. -/
def deltaFieldValid (d : Option String) : Bool :=
  match d with
  | none => false
  | some s => decide (0 < s.length)

/-- Embeds `TextMessageContentEventSchema` (events.ts lines 77-81):
`messageId: z.string()` and a delta that must be a non-empty string. -/
def textMessageContentEventValid (e : ContentEventFields) : Bool :=
  e.messageId.isSome && deltaFieldValid e.delta

/-- Embeds `ReasoningMessageContentEventSchema` (events.ts lines 258-262):
`messageId: z.string()` and a delta that must be a non-empty string --
the same `.refine((s) => s.length > 0)` as the text-message schema. -/
def reasoningMessageContentEventValid (e : ContentEventFields) : Bool :=
  e.messageId.isSome && deltaFieldValid e.delta

/-! ## Backward-compatibility middleware (backward-compatibility-0-0-45.ts)

Events are dynamic records in TypeScript; the middleware reads and writes the
`type`, `messageId`, `delta`, `role` and `title` fields, spreading all other
fields through unchanged.  We model the record with exactly those fields. -/

/-- A protocol event as seen by the middleware: a record of the fields the
transform reads or writes.  Absent optional fields are `none`. -/
structure BEvent where
  type : String
  messageId : Option String := none
  delta : Option String := none
  role : Option String := none
  title : Option String := none
  deriving DecidableEq, Repr

/-- Per-run correlation state of `BackwardCompatibility_0_0_45`, plus a
counter indexing the id generator (modelling successive `randomUUID()`
calls as successive indices into an id supply `gen : Nat → String`). -/
structure CompatState where
  currentReasoningId : Option String
  currentMessageId : Option String
  fresh : Nat
  deriving DecidableEq, Repr

/-- State at the start of a run: both correlation ids reset to null. -/
def initCompatState : CompatState :=
  { currentReasoningId := none, currentMessageId := none, fresh := 0 }

/-- Embeds `BackwardCompatibility_0_0_45.transformEvent`: rewrites the five
deprecated THINKING event kinds to REASONING events with generated
correlation ids, and passes every other event through unchanged.
`gen` supplies the results of successive `randomUUID()` calls. -/
def transformEvent (gen : Nat → String) (st : CompatState) (e : BEvent) :
    CompatState × BEvent :=
  if e.type = "THINKING_START" then
    let id := gen st.fresh
    ({ st with currentReasoningId := some id, fresh := st.fresh + 1 },
     { e with type := "REASONING_START", messageId := some id, title := none })
  else if e.type = "THINKING_TEXT_MESSAGE_START" then
    let id := gen st.fresh
    ({ st with currentMessageId := some id, fresh := st.fresh + 1 },
     { e with type := "REASONING_MESSAGE_START", messageId := some id,
              role := some "assistant" })
  else if e.type = "THINKING_TEXT_MESSAGE_CONTENT" then
    match st.currentMessageId with
    | some id => (st, { e with type := "REASONING_MESSAGE_CONTENT", messageId := some id })
    | none =>
        let id := gen st.fresh
        ({ st with fresh := st.fresh + 1 },
         { e with type := "REASONING_MESSAGE_CONTENT", messageId := some id })
  else if e.type = "THINKING_TEXT_MESSAGE_END" then
    match st.currentMessageId with
    | some id => (st, { e with type := "REASONING_MESSAGE_END", messageId := some id })
    | none =>
        let id := gen st.fresh
        ({ st with fresh := st.fresh + 1 },
         { e with type := "REASONING_MESSAGE_END", messageId := some id })
  else if e.type = "THINKING_END" then
    match st.currentReasoningId with
    | some id => (st, { e with type := "REASONING_END", messageId := some id })
    | none =>
        let id := gen st.fresh
        ({ st with fresh := st.fresh + 1 },
         { e with type := "REASONING_END", messageId := some id })
  else
    (st, e)

/-- Map `transformEvent` over a stream of events, threading the state. -/
def transformEvents (gen : Nat → String) (st : CompatState) : List BEvent → List BEvent
  | [] => []
  | e :: rest =>
      let (st1, o) := transformEvent gen st e
      o :: transformEvents gen st1 rest

/-- One run of the middleware: the correlation state is reset at run start
(`run` sets both ids to null) before the event stream is transformed. -/
def transformRun (gen : Nat → String) (es : List BEvent) : List BEvent :=
  transformEvents gen initCompatState es

/-- Whether an event type is one of the five deprecated THINKING kinds. -/
def isThinkingType (t : String) : Bool :=
  t = "THINKING_START" || t = "THINKING_TEXT_MESSAGE_START" ||
  t = "THINKING_TEXT_MESSAGE_CONTENT" || t = "THINKING_TEXT_MESSAGE_END" ||
  t = "THINKING_END"

/-- Embeds `warnAboutTransformation`: returns the console warning emitted for
one deprecated-event transformation, or nothing when
`SUPPRESS_TRANSFORMATION_WARNINGS` is set. -/
def warnAboutTransform (suppress : Bool) (src dst : String) : List String :=
  if suppress then []
  else ["AG-UI is converting " ++ src ++ " to " ++ dst ++
        ". To suppress this warning, upgrade your AG-UI integration package, " ++
        "switch over to REASONING_* events, ask your integration provider to " ++
        "update their event system or set SUPPRESS_TRANSFORMATION_WARNINGS=true " ++
        "in your .env file."]

/-- The warning list produced by `transformEvent` for one event: each THINKING
case calls `warnAboutTransformation` with its source and target kind. -/
def transformWarnings (suppress : Bool) (e : BEvent) : List String :=
  if e.type = "THINKING_START" then
    warnAboutTransform suppress "THINKING_START" "REASONING_START"
  else if e.type = "THINKING_TEXT_MESSAGE_START" then
    warnAboutTransform suppress "THINKING_TEXT_MESSAGE_START" "REASONING_MESSAGE_START"
  else if e.type = "THINKING_TEXT_MESSAGE_CONTENT" then
    warnAboutTransform suppress "THINKING_TEXT_MESSAGE_CONTENT" "REASONING_MESSAGE_CONTENT"
  else if e.type = "THINKING_TEXT_MESSAGE_END" then
    warnAboutTransform suppress "THINKING_TEXT_MESSAGE_END" "REASONING_MESSAGE_END"
  else if e.type = "THINKING_END" then
    warnAboutTransform suppress "THINKING_END" "REASONING_END"
  else []

/-- Embeds the warning-emitting variant of `transformEvent`: the transformation
result together with the warnings written to the console during it. -/
def transformEventW (suppress : Bool) (gen : Nat → String) (st : CompatState)
    (e : BEvent) : CompatState × BEvent × List String :=
  let (st1, o) := transformEvent gen st e
  (st1, o, transformWarnings suppress e)

/-- Whether an event type is an orphan-capable deprecated message event:
content or end, which fall back to a fresh id when no start was seen. -/
def isOrphanThinkingMsg (t : String) : Bool :=
  t = "THINKING_TEXT_MESSAGE_CONTENT" || t = "THINKING_TEXT_MESSAGE_END"

/-! ## Event-application state machine (`defaultApplyEvents`)

The implementation module `packages/client/src/apply/default.ts` is not part
of the source tree here (only its test suites are), so the reducer is
modelled from the spec (sections 4.2 and 4.3) and cross-checked against the
expectations of `default.text-message.test.ts` and
`default.reasoning.test.ts`. -/

/-- Message roles of the protocol data model. -/
inductive Role
  | developer
  | system
  | assistant
  | user
  | tool
  | activity
  | reasoning
  deriving DecidableEq, Repr

/-- Function invocation descriptor inside a tool call. -/
structure FunctionCall where
  name : String
  arguments : String
  deriving DecidableEq, Repr

/-- A tool-call descriptor carried by an assistant message. -/
structure ToolCall where
  id : String
  type : String
  function : FunctionCall
  encryptedValue : Option String
  deriving DecidableEq, Repr

/-- A conversation message as accumulated by the state machine. -/
structure Msg where
  id : String
  role : Role
  content : String
  toolCalls : List ToolCall
  toolCallId : Option String
  encryptedValue : Option String
  deriving DecidableEq, Repr

/-- Subtype discriminator of a REASONING_ENCRYPTED_VALUE event. -/
inductive EncSubtype
  | toolCall
  | message
  deriving DecidableEq, Repr

/-- The protocol events consumed by the reducer, restricted to the kinds the
claims exercise. -/
inductive Event
  | runStarted (threadId runId : String)
  | textMessageStart (messageId : String) (role : Role)
  | textMessageContent (messageId delta : String)
  | textMessageEnd (messageId : String)
  | textMessageChunk (messageId delta : Option String)
  | toolCallStart (toolCallId toolCallName : String) (parentMessageId : Option String)
  | toolCallArgs (toolCallId delta : String)
  | toolCallEnd (toolCallId : String)
  | toolCallChunk (toolCallId delta : Option String)
  | toolCallResult (messageId toolCallId content : String)
  | reasoningStart (messageId : String)
  | reasoningMessageStart (messageId : String)
  | reasoningMessageContent (messageId delta : String)
  | reasoningMessageEnd (messageId : String)
  | reasoningMessageChunk (messageId delta : Option String)
  | reasoningEnd
  | reasoningEncryptedValue (subtype : EncSubtype) (entityId encryptedValue : String)
  deriving DecidableEq, Repr

/-- The mutable aggregate owned by the state machine: the ordered message
list, plus a counter indexing generated fresh message ids. -/
structure AgentState where
  messages : List Msg
  freshCounter : Nat
  deriving DecidableEq, Repr

/-- The outcome of applying one event: the next state, the warnings logged,
and whether a state snapshot is emitted (the event caused a mutation). -/
structure StepResult where
  state : AgentState
  warnings : List String
  emitted : Bool
  deriving DecidableEq, Repr

/-- Whether some message in the list has the given id. -/
def hasMsg (msgs : List Msg) (mid : String) : Bool :=
  msgs.any (fun m => m.id = mid)

/-- Update the first message with the given id, leaving the rest unchanged. -/
def updateFirst (msgs : List Msg) (mid : String) (f : Msg → Msg) : List Msg :=
  match msgs with
  | [] => []
  | m :: rest => if m.id = mid then f m :: rest else m :: updateFirst rest mid f

/-- Whether some message carries a tool call with the given id. -/
def hasToolCall (msgs : List Msg) (tcid : String) : Bool :=
  msgs.any (fun m => m.toolCalls.any (fun tc => tc.id = tcid))

/-- Whether some assistant message carries a tool call with the given id. -/
def hasAssistantToolCall (msgs : List Msg) (tcid : String) : Bool :=
  msgs.any (fun m => m.role = Role.assistant && m.toolCalls.any (fun tc => tc.id = tcid))

/-- Apply `f` to every tool call with the given id in every message. -/
def updateToolCall (msgs : List Msg) (tcid : String) (f : ToolCall → ToolCall) : List Msg :=
  msgs.map (fun m =>
    { m with toolCalls := m.toolCalls.map (fun tc => if tc.id = tcid then f tc else tc) })

/-- Apply `f` to every tool call with the given id inside assistant messages. -/
def updateAssistantToolCall (msgs : List Msg) (tcid : String)
    (f : ToolCall → ToolCall) : List Msg :=
  msgs.map (fun m =>
    if m.role = Role.assistant then
      { m with toolCalls := m.toolCalls.map (fun tc => if tc.id = tcid then f tc else tc) }
    else m)

/-- A fresh message created by a start event: given id and role, empty
content, no tool calls. -/
def newMsg (mid : String) (role : Role) : Msg :=
  { id := mid, role := role, content := "", toolCalls := [],
    toolCallId := none, encryptedValue := none }

/-- Modelled from the spec: `defaultApplyEvents`, whose implementation module
`apply/default.ts` is absent from the source tree.  Given the current state
and one event, produce the next state (sections 4.2, 7), following the
message lifecycle rules: a start event referencing an existing id reuses the
message instead of creating a duplicate; a content event appends its delta to
the target message; a content or end event naming an unknown id logs a
warning and leaves the state unchanged; a chunk event raises a descriptive
error; tool-call start locates or creates the assistant parent message;
encrypted values attach to the matching tool call or non-activity message. -/
def applyEvent (st : AgentState) (e : Event) : Except String StepResult :=
  match e with
  | .runStarted _ _ => .ok ⟨st, [], false⟩
  | .textMessageStart mid role =>
      if hasMsg st.messages mid then
        .ok ⟨st, [], false⟩
      else
        .ok ⟨{ st with messages := st.messages ++ [newMsg mid role] }, [], true⟩
  | .textMessageContent mid d =>
      if hasMsg st.messages mid then
        .ok ⟨{ st with messages :=
                updateFirst st.messages mid (fun m => { m with content := m.content ++ d }) },
             [], true⟩
      else
        .ok ⟨st, ["TEXT_MESSAGE_CONTENT: No message found with ID " ++ mid], false⟩
  | .textMessageEnd mid =>
      if hasMsg st.messages mid then
        .ok ⟨st, [], false⟩
      else
        .ok ⟨st, ["TEXT_MESSAGE_END: No message found with ID " ++ mid], false⟩
  | .textMessageChunk _ _ =>
      .error "TEXT_MESSAGE_CHUNK must be transformed before being applied"
  | .toolCallStart tcid name parent =>
      let pid := parent.getD ("generated-" ++ toString st.freshCounter)
      let fresh1 := if parent.isSome then st.freshCounter else st.freshCounter + 1
      let tc : ToolCall := ⟨tcid, "function", ⟨name, ""⟩, none⟩
      if hasMsg st.messages pid then
        .ok ⟨{ messages :=
                updateFirst st.messages pid (fun m => { m with toolCalls := m.toolCalls ++ [tc] }),
               freshCounter := fresh1 }, [], true⟩
      else
        .ok ⟨{ messages := st.messages ++ [{ newMsg pid Role.assistant with toolCalls := [tc] }],
               freshCounter := fresh1 }, [], true⟩
  | .toolCallArgs tcid d =>
      if hasToolCall st.messages tcid then
        .ok ⟨{ st with messages :=
                updateToolCall st.messages tcid (fun tc =>
                  { tc with function := { tc.function with
                      arguments := tc.function.arguments ++ d } }) },
             [], true⟩
      else
        .ok ⟨st, ["TOOL_CALL_ARGS: No tool call found with ID " ++ tcid], false⟩
  | .toolCallEnd _ => .ok ⟨st, [], false⟩
  | .toolCallChunk _ _ =>
      .error "TOOL_CALL_CHUNK must be transformed before being applied"
  | .toolCallResult mid tcid content =>
      let toolMsg : Msg :=
        { newMsg mid Role.tool with content := content, toolCallId := some tcid }
      .ok ⟨{ st with messages := st.messages ++ [toolMsg] }, [], true⟩
  | .reasoningStart _ => .ok ⟨st, [], false⟩
  | .reasoningMessageStart mid =>
      if hasMsg st.messages mid then
        .ok ⟨st, [], false⟩
      else
        .ok ⟨{ st with messages := st.messages ++ [newMsg mid Role.reasoning] }, [], true⟩
  | .reasoningMessageContent mid d =>
      if hasMsg st.messages mid then
        .ok ⟨{ st with messages :=
                updateFirst st.messages mid (fun m => { m with content := m.content ++ d }) },
             [], true⟩
      else
        .ok ⟨st, ["REASONING_MESSAGE_CONTENT: No message found with ID " ++ mid], false⟩
  | .reasoningMessageEnd mid =>
      if hasMsg st.messages mid then
        .ok ⟨st, [], false⟩
      else
        .ok ⟨st, ["REASONING_MESSAGE_END: No message found with ID " ++ mid], false⟩
  | .reasoningMessageChunk _ _ =>
      .error "REASONING_MESSAGE_CHUNK must be transformed before being applied"
  | .reasoningEnd => .ok ⟨st, [], false⟩
  | .reasoningEncryptedValue subtype eid value =>
      match subtype with
      | .toolCall =>
          if hasAssistantToolCall st.messages eid then
            .ok ⟨{ st with messages :=
                    updateAssistantToolCall st.messages eid (fun tc =>
                      { tc with encryptedValue := some value }) },
                 [], true⟩
          else
            .ok ⟨st, [], false⟩
      | .message =>
          if st.messages.any (fun m => m.id = eid && m.role ≠ Role.activity) then
            .ok ⟨{ st with messages :=
                    st.messages.map (fun m =>
                      if m.id = eid && m.role ≠ Role.activity then
                        { m with encryptedValue := some value }
                      else m) },
                 [], true⟩
          else
            .ok ⟨st, [], false⟩

/-- Modelled from the spec: apply a whole event stream in arrival order,
accumulating warnings; the first error aborts the run. -/
def applyEvents (st : AgentState) : List Event → Except String (AgentState × List String)
  | [] => .ok (st, [])
  | e :: rest =>
      match applyEvent st e with
      | .error msg => .error msg
      | .ok r =>
          match applyEvents r.state rest with
          | .error msg => .error msg
          | .ok (fin, ws) => .ok (fin, r.warnings ++ ws)

/-- Modelled from the spec: a subscriber, reduced to its stop-propagation
verdict for each event (section 4.3). -/
def Subscriber : Type :=
  Event → Bool

/-- The verdicts of all registered subscribers for one event, in registration
order: every subscriber is invoked. -/
def subscriberVerdicts (subs : List Subscriber) (e : Event) : List Bool :=
  subs.map (fun s => s e)

/-- Modelled from the spec: apply one event with subscriber fan-out.  Every
subscriber is notified; if any signals stop-propagation the state mutation
for this event is suppressed while the stream keeps running. -/
def applyEventWithSubs (subs : List Subscriber) (st : AgentState) (e : Event) :
    Except String (StepResult × List Bool) :=
  let verdicts := subscriberVerdicts subs e
  if verdicts.any id then
    .ok (⟨st, [], false⟩, verdicts)
  else
    match applyEvent st e with
    | .error msg => .error msg
    | .ok r => .ok (r, verdicts)

/-- Modelled from the spec: apply a stream with subscriber fan-out, recording
for every event the full list of subscriber verdicts. -/
def applyEventsWithSubs (subs : List Subscriber) (st : AgentState) :
    List Event → Except String (AgentState × List (List Bool))
  | [] => .ok (st, [])
  | e :: rest =>
      match applyEventWithSubs subs st e with
      | .error msg => .error msg
      | .ok (r, verdicts) =>
          match applyEventsWithSubs subs r.state rest with
          | .error msg => .error msg
          | .ok (fin, logs) => .ok (fin, verdicts :: logs)

/-- Concatenation of a list of deltas in arrival order. -/
def concatAll : List String → String
  | [] => ""
  | d :: ds => d ++ concatAll ds

/-- Selector for the two symmetric content-event kinds: `true` is
TEXT_MESSAGE_CONTENT and `false` is REASONING_MESSAGE_CONTENT. -/
def contentEvent (kind : Bool) (mid d : String) : Event :=
  if kind then Event.textMessageContent mid d else Event.reasoningMessageContent mid d

/-- The assistant message created by a TOOL_CALL_START joined on its parent
message id: empty content and a single fresh tool-call descriptor. -/
def joinMsg (m tcid name : String) : Msg :=
  { id := m, role := Role.assistant, content := "",
    toolCalls := [{ id := tcid, type := "function",
                    function := { name := name, arguments := "" },
                    encryptedValue := none }],
    toolCallId := none, encryptedValue := none }

/-- An injective id supply used as a concrete stand-in for `randomUUID`:
distinct calls yield distinct ids. -/
def genA (n : Nat) : String :=
  String.mk (List.replicate n 'a')

/-! ## Ruby serialization layer (`ag_ui_protocol`)

`Model#as_json` camelizes keys and removes nil values recursively
(`core/types.rb`, `Util` in `core/events.rb`), and `EventEncoder#encode`
frames the generated JSON as a Server-Sent Event (`encoder/event_encoder.rb`). -/

/-- A JSON-like Ruby value: nil, string, number, boolean, array, or hash with
string keys. -/
inductive JValue
  | null
  | str (s : String)
  | num (n : Int)
  | bool (b : Bool)
  | arr (xs : List JValue)
  | obj (fields : List (String × JValue))

/-- Whether a value is nil. -/
def JValue.isNull : JValue → Bool
  | .null => true
  | _ => false

mutual

/-- Embeds `AgUiProtocol::Util.deep_compact`: in a hash, keys with nil values
are removed and the remaining values compacted recursively; in an array, nil
elements are removed; scalars pass through. -/
def deepCompact : JValue → JValue
  | .null => .null
  | .str s => .str s
  | .num n => .num n
  | .bool b => .bool b
  | .arr xs => .arr (deepCompactArr xs)
  | .obj fs => .obj (deepCompactObj fs)

/-- Array part of `deep_compact`: map then reject nils. -/
def deepCompactArr : List JValue → List JValue
  | [] => []
  | v :: vs =>
      match v with
      | .null => deepCompactArr vs
      | v => deepCompact v :: deepCompactArr vs

/-- Hash part of `deep_compact`: transform values, dropping nil-valued keys. -/
def deepCompactObj : List (String × JValue) → List (String × JValue)
  | [] => []
  | (k, v) :: fs =>
      match v with
      | .null => deepCompactObj fs
      | v => (k, deepCompact v) :: deepCompactObj fs

end

/-- Split a character list at underscores, accumulating the current part in
reverse; every underscore is a separator. -/
def splitUnderscoreAux : List Char → List Char → List (List Char)
  | [], cur => [cur.reverse]
  | c :: rest, cur =>
      if c = '_' then cur.reverse :: splitUnderscoreAux rest []
      else splitUnderscoreAux rest (c :: cur)

/-- Drop the trailing empty strings of a part list, as Ruby String#split
does. -/
def dropTrailingEmpties (xs : List String) : List String :=
  (xs.reverse.dropWhile (fun s => s = "")).reverse

/-- Embeds Ruby `str.split("_")`: parts between underscores, with leading and
interior empty parts kept and trailing empty parts removed. -/
def rubySplitUnderscore (s : String) : List String :=
  dropTrailingEmpties ((splitUnderscoreAux s.data []).map String.mk)

/-- Embeds `p.empty? ? "" : (p[0].upcase + p[1..])`. -/
def capitalizePart (p : String) : String :=
  match p.data with
  | [] => ""
  | c :: cs => String.mk (c.toUpper :: cs)

/-- Embeds `parts[1..].map { |p| ... }.join` over capitalized parts. -/
def joinCapitalized : List String → String
  | [] => ""
  | p :: ps => capitalizePart p ++ joinCapitalized ps

/-- Body of `camelize_key` on the split parts: `return str if parts.length
<= 1`, otherwise `parts[0] + parts[1..].map { ... }.join`. -/
def camelizeParts (k : String) : List String → String
  | [] => k
  | [_] => k
  | p :: ps => p ++ joinCapitalized ps

/-- Embeds `AgUiProtocol::Util.camelize_key`: split on underscores, return
the original string when at most one part remains, otherwise concatenate the
first part with the remaining parts capitalized. -/
def camelizeKey (k : String) : String :=
  camelizeParts k (rubySplitUnderscore k)

mutual

/-- Embeds `AgUiProtocol::Util.deep_transform_keys_to_camel`: camelize every
hash key recursively, leaving other values unchanged. -/
def deepTransformKeysToCamel : JValue → JValue
  | .null => .null
  | .str s => .str s
  | .num n => .num n
  | .bool b => .bool b
  | .arr xs => .arr (camelArr xs)
  | .obj fs => .obj (camelObj fs)

/-- Array part of `deep_transform_keys_to_camel`. -/
def camelArr : List JValue → List JValue
  | [] => []
  | v :: vs => deepTransformKeysToCamel v :: camelArr vs

/-- Hash part of `deep_transform_keys_to_camel`. -/
def camelObj : List (String × JValue) → List (String × JValue)
  | [] => []
  | (k, v) :: fs => (camelizeKey k, deepTransformKeysToCamel v) :: camelObj fs

end

/-- Embeds `Model#as_json`: camelize the keys of the compacted hash. -/
def asJson (v : JValue) : JValue :=
  deepTransformKeysToCamel (deepCompact v)

/-- JSON string escaping for one character. -/
def escapeStringChar (c : Char) : String :=
  if c = '"' then "\\\""
  else if c = '\\' then "\\\\"
  else if c = '\n' then "\\n"
  else if c = '\t' then "\\t"
  else if c = '\r' then "\\r"
  else String.mk [c]

/-- JSON string escaping over a character list. -/
def escapeChars : List Char → String
  | [] => ""
  | c :: cs => escapeStringChar c ++ escapeChars cs

/-- A JSON string literal with surrounding quotes. -/
def quoteString (s : String) : String :=
  "\"" ++ escapeChars s.data ++ "\""

mutual

/-- Embeds `JSON.generate` over the JSON-like value model. -/
def dumpJson : JValue → String
  | .null => "null"
  | .str s => quoteString s
  | .num n => toString n
  | .bool b => if b then "true" else "false"
  | .arr xs => "[" ++ dumpJsonArr xs ++ "]"
  | .obj fs => "\x7b" ++ dumpJsonObj fs ++ "\x7d"

/-- Comma-separated serialization of array elements. -/
def dumpJsonArr : List JValue → String
  | [] => ""
  | [v] => dumpJson v
  | v :: vs => dumpJson v ++ "," ++ dumpJsonArr vs

/-- Comma-separated serialization of hash entries. -/
def dumpJsonObj : List (String × JValue) → String
  | [] => ""
  | [(k, v)] => quoteString k ++ ":" ++ dumpJson v
  | (k, v) :: fs => quoteString k ++ ":" ++ dumpJson v ++ "," ++ dumpJsonObj fs

end

/-- Embeds `EventEncoder#encode`: the as_json payload serialized to JSON and
framed as a Server-Sent Event. -/
def encode (event : JValue) : String :=
  "data: " ++ dumpJson (asJson event) ++ "\n\n"

/-- Embeds `BaseEvent#to_h`: the snake_case hash with the type, timestamp and
raw_event fields; absent optionals are nil. -/
def baseEventToH (type : String) (timestamp rawEvent : JValue) : JValue :=
  .obj [("type", .str type), ("timestamp", timestamp), ("raw_event", rawEvent)]

/-- No underscore occurs anywhere in the string. -/
def noUnderscoreIn (s : String) : Bool :=
  s.data.all (fun c => c ≠ '_')

/-- The string does not end with an underscore (true of every snake_case key
the Ruby models emit). -/
def noTrailingUnderscore (s : String) : Bool :=
  match s.data.getLast? with
  | some c => c ≠ '_'
  | none => true

mutual

/-- Every hash key in the value, recursively, satisfies `p`. -/
def keysAll (p : String → Bool) : JValue → Bool
  | .arr xs => keysAllArr p xs
  | .obj fs => keysAllObj p fs
  | _ => true

/-- Array part of `keysAll`. -/
def keysAllArr (p : String → Bool) : List JValue → Bool
  | [] => true
  | v :: vs => keysAll p v && keysAllArr p vs

/-- Hash part of `keysAll`. -/
def keysAllObj (p : String → Bool) : List (String × JValue) → Bool
  | [] => true
  | (k, v) :: fs => p k && keysAll p v && keysAllObj p fs

end

mutual

/-- No nil occurs strictly inside the value (as an array element or hash
value, at any depth). -/
def noNullInside : JValue → Bool
  | .arr xs => noNullInsideArr xs
  | .obj fs => noNullInsideObj fs
  | _ => true

/-- Array part of `noNullInside`. -/
def noNullInsideArr : List JValue → Bool
  | [] => true
  | v :: vs => !(v.isNull) && noNullInside v && noNullInsideArr vs

/-- Hash part of `noNullInside`. -/
def noNullInsideObj : List (String × JValue) → Bool
  | [] => true
  | (_, v) :: fs => !(v.isNull) && noNullInside v && noNullInsideObj fs

end

/-- The top-level keys of a hash value. -/
def objKeys : JValue → List String
  | .obj fs => fs.map Prod.fst
  | _ => []

theorem genA_injective : Function.Injective genA := by
  intro a b h
  have hd : (genA a).data = (genA b).data := by rw [h]
  simpa [genA] using congrArg List.length hd

theorem str_empty_append (s : String) : "" ++ s = s := by
  cases s
  rfl

theorem str_append_empty (s : String) : s ++ "" = s := by
  cases s with
  | mk data =>
      show String.mk (data ++ []) = String.mk data
      rw [List.append_nil]

theorem str_append_assoc (a b c : String) : a ++ b ++ c = a ++ (b ++ c)  := by
  cases a with
  | mk la =>
      cases b with
      | mk lb =>
          cases c with
          | mk lc =>
              show String.mk (la ++ lb ++ lc) = String.mk (la ++ (lb ++ lc))
              rw [List.append_assoc]

theorem hasMsg_eq_false_iff (msgs : List Msg) (mid : String) :
    hasMsg msgs mid = false ↔ ∀ x ∈ msgs, x.id ≠ mid := by
  simp [hasMsg]

theorem hasMsg_of_mem (msgs : List Msg) (mid : String) (msg0 : Msg)
    (hm : msg0 ∈ msgs) (hid : msg0.id = mid) : hasMsg msgs mid = true := by
  simp only [hasMsg, List.any_eq_true, decide_eq_true_eq]
  exact ⟨msg0, hm, hid⟩

theorem filter_id_eq_nil (msgs : List Msg) (mid : String)
    (h : ∀ x ∈ msgs, x.id ≠ mid) :
    msgs.filter (fun x => x.id = mid) = [] := by
  rw [List.filter_eq_nil_iff]
  intro a ha
  simp [h a ha]

theorem hasMsg_of_filter_single (msgs : List Msg) (mid : String) (msg0 : Msg)
    (h : msgs.filter (fun x => x.id = mid) = [msg0]) : hasMsg msgs mid = true := by
  have hmem : msg0 ∈ msgs.filter (fun x => x.id = mid) := by
    rw [h]
    exact List.mem_singleton.mpr rfl
  rw [List.mem_filter] at hmem
  exact hasMsg_of_mem msgs mid msg0 hmem.1 (by simpa using hmem.2)

theorem id_of_filter_single (msgs : List Msg) (mid : String) (msg0 : Msg)
    (h : msgs.filter (fun x => x.id = mid) = [msg0]) : msg0.id = mid := by
  have hmem : msg0 ∈ msgs.filter (fun x => x.id = mid) := by
    rw [h]
    exact List.mem_singleton.mpr rfl
  rw [List.mem_filter] at hmem
  simpa using hmem.2

theorem updateFirst_filter_single (msgs : List Msg) (mid : String) (msg0 : Msg)
    (f : Msg → Msg) (hf : (f msg0).id = msg0.id)
    (h : msgs.filter (fun x => x.id = mid) = [msg0]) :
    (updateFirst msgs mid f).filter (fun x => x.id = mid) = [f msg0] := by
  induction msgs with
  | nil => simp at h
  | cons m rest ih =>
      by_cases pm : m.id = mid
      · have hfil : (m :: rest).filter (fun x => x.id = mid) =
            m :: rest.filter (fun x => x.id = mid) := by
          simp [List.filter_cons, pm]
        rw [hfil] at h
        have hm : m = msg0 := (List.cons_eq_cons.mp h).1
        have hrest : rest.filter (fun x => x.id = mid) = [] :=
          (List.cons_eq_cons.mp h).2.symm.symm
        have hup : updateFirst (m :: rest) mid f = f m :: rest := by
          simp [updateFirst, pm]
        rw [hup, hm]
        have hpf : (f msg0).id = mid := by rw [hf, ← hm, pm]
        simp [List.filter_cons, hpf, hrest]

      · have hfil : (m :: rest).filter (fun x => x.id = mid) =
            rest.filter (fun x => x.id = mid) := by
          simp [List.filter_cons, pm]
        rw [hfil] at h
        have hup : updateFirst (m :: rest) mid f = m :: updateFirst rest mid f := by
          simp [updateFirst, pm]
        rw [hup]
        have hskip : (m :: updateFirst rest mid f).filter (fun x => x.id = mid) =
            (updateFirst rest mid f).filter (fun x => x.id = mid) := by
          simp [List.filter_cons, pm]
        rw [hskip]
        exact ih h

theorem applyEvents_content_fold (kind : Bool) (ds : List String) (st : AgentState)
    (mid : String) (msg0 : Msg)
    (h : st.messages.filter (fun x => x.id = mid) = [msg0]) :
    ∃ fin : AgentState,
      applyEvents st (ds.map (contentEvent kind mid)) = .ok (fin, [])
      ∧ fin.messages.filter (fun x => x.id = mid) =
          [{ msg0 with content := msg0.content ++ concatAll ds }]
      ∧ fin.freshCounter = st.freshCounter := by
  induction ds generalizing st msg0 with
  | nil =>
      refine ⟨st, rfl, ?_, rfl⟩
      rw [h]
      simp [concatAll, str_append_empty]
  | cons d ds ih =>
      have hhas : hasMsg st.messages mid = true := hasMsg_of_filter_single _ _ _ h
      have hnew := updateFirst_filter_single st.messages mid msg0
        (fun m => { m with content := m.content ++ d }) rfl h
      obtain ⟨fin, hrun, hfil, hcnt⟩ :=
        ih { st with messages :=
              (updateFirst st.messages mid (fun m => { m with content := m.content ++ d })) }
          { msg0 with content := msg0.content ++ d } hnew
      refine ⟨fin, ?_, ?_, by rw [hcnt]⟩
      · cases kind with
        | false =>
            simp only [List.map_cons, contentEvent, Bool.false_eq_true, if_false,
              applyEvents]
            simp only [applyEvent, hhas, if_true]
            rw [hrun]
            rfl
        | true =>
            simp only [List.map_cons, contentEvent, if_true, applyEvents]
            simp only [applyEvent, hhas, if_true]
            rw [hrun]
            rfl
      · rw [hfil]
        simp only [concatAll]
        rw [str_append_assoc]

/-- C2 counterexample: validating a REASONING_MESSAGE_CONTENT event whose
delta field is present but equal to the empty string fails, contrary to the
claim that it succeeds. -/
theorem reasoning_content_empty_delta_rejected :
    reasoningMessageContentEventValid ⟨some "r1", some ""⟩ = false := by
  decide

/-- C2 (amended): the non-empty-delta requirement is enforced identically for
TEXT_MESSAGE_CONTENT and REASONING_MESSAGE_CONTENT events: both require the
delta field to be present, both reject an empty delta, and both accept a
whitespace-only delta. -/
theorem reasoning_and_text_content_delta_validation :
    (∀ e, reasoningMessageContentEventValid e = textMessageContentEventValid e)
    ∧ (∀ mid, reasoningMessageContentEventValid ⟨mid, none⟩ = false)
    ∧ reasoningMessageContentEventValid ⟨some "r1", some ""⟩ = false
    ∧ reasoningMessageContentEventValid ⟨some "r1", some "   "⟩ = true := by
  refine ⟨fun e => rfl, fun mid => ?_, by decide, by decide⟩
  simp [reasoningMessageContentEventValid, deltaFieldValid]

/-- C3: the deprecated sequence THINKING_START (with any title),
THINKING_TEXT_MESSAGE_START, THINKING_TEXT_MESSAGE_CONTENT(delta=d),
THINKING_TEXT_MESSAGE_END, THINKING_END transforms into REASONING_START,
REASONING_MESSAGE_START(role=assistant), REASONING_MESSAGE_CONTENT(delta=d),
REASONING_MESSAGE_END, REASONING_END, where the three message-level events
share the second generated id, the phase-level pair shares the first
generated id (distinct from it), the delta is preserved verbatim, and the
title is dropped. -/
theorem thinking_sequence_transforms_to_reasoning (gen : Nat → String)
    (h : gen 0 ≠ gen 1) (d ttl : String) :
    transformRun gen
      [{ type := "THINKING_START", title := some ttl },
       { type := "THINKING_TEXT_MESSAGE_START" },
       { type := "THINKING_TEXT_MESSAGE_CONTENT", delta := some d },
       { type := "THINKING_TEXT_MESSAGE_END" },
       { type := "THINKING_END" }] =
      [{ type := "REASONING_START", messageId := some (gen 0) },
       { type := "REASONING_MESSAGE_START", messageId := some (gen 1),
         role := some "assistant" },
       { type := "REASONING_MESSAGE_CONTENT", messageId := some (gen 1),
         delta := some d },
       { type := "REASONING_MESSAGE_END", messageId := some (gen 1) },
       { type := "REASONING_END", messageId := some (gen 0) }]
    ∧ gen 0 ≠ gen 1 := by
  exact ⟨rfl, h⟩

/-- C3 witness: the transformation evaluated on the concrete id supply `genA`
with delta "x" and title "t". -/
theorem thinking_sequence_transforms_to_reasoning_witness :
    transformRun genA
      [{ type := "THINKING_START", title := some "t" },
       { type := "THINKING_TEXT_MESSAGE_START" },
       { type := "THINKING_TEXT_MESSAGE_CONTENT", delta := some "x" },
       { type := "THINKING_TEXT_MESSAGE_END" },
       { type := "THINKING_END" }] =
      [{ type := "REASONING_START", messageId := some (genA 0) },
       { type := "REASONING_MESSAGE_START", messageId := some (genA 1),
         role := some "assistant" },
       { type := "REASONING_MESSAGE_CONTENT", messageId := some (genA 1),
         delta := some "x" },
       { type := "REASONING_MESSAGE_END", messageId := some (genA 1) },
       { type := "REASONING_END", messageId := some (genA 0) }]
    ∧ genA 0 ≠ genA 1 :=
  thinking_sequence_transforms_to_reasoning genA (by decide) "x" "t"

/-- C4 counterexample: with suppression off, transforming two THINKING_START
events in the same process emits two deprecation warnings, contradicting the
claim that the warning is emitted at most once per process. -/
theorem deprecation_warning_repeats_per_event :
    ¬ (((transformEventW false genA initCompatState { type := "THINKING_START" }).2.2 ++
        (transformEventW false genA
          (transformEventW false genA initCompatState { type := "THINKING_START" }).1
          { type := "THINKING_START" }).2.2).length ≤ 1) := by
  decide

/-- C4 (amended): each deprecated-thinking-event transformation emits a
human-readable deprecation warning every time it runs (once per transformed
event, not once per process), emits no warning when suppression is configured
via SUPPRESS_TRANSFORMATION_WARNINGS, and in no case blocks or alters the
transformation of the event itself. -/
theorem deprecation_warning_behavior (suppress : Bool) (gen : Nat → String)
    (st : CompatState) (e : BEvent) :
    (transformEventW true gen st e).2.2 = []
    ∧ (transformEventW suppress gen st e).1 = (transformEvent gen st e).1
    ∧ (transformEventW suppress gen st e).2.1 = (transformEvent gen st e).2
    ∧ (isThinkingType e.type = true → suppress = false →
        (transformEventW suppress gen st e).2.2.length = 1) := by
  refine ⟨?_, rfl, rfl, ?_⟩
  · simp only [transformEventW, transformWarnings, warnAboutTransform]
    split <;> simp
  · intro ht hs
    subst hs
    simp only [isThinkingType, Bool.or_eq_true, decide_eq_true_eq] at ht
    obtain (((h | h) | h) | h) | h := ht <;>
      simp [transformEventW, transformWarnings, warnAboutTransform, h]

/-- C4 witness: at a concrete THINKING_START event with suppression off, the
transformation emits exactly one warning. -/
theorem deprecation_warning_behavior_witness :
    (transformEventW false genA initCompatState { type := "THINKING_START" }).2.2.length = 1 :=
  (deprecation_warning_behavior false genA initCompatState
    { type := "THINKING_START" }).2.2.2 (by decide) rfl

/-- C10: an orphan THINKING_TEXT_MESSAGE_CONTENT or THINKING_TEXT_MESSAGE_END
event arriving when no message id is stored receives a freshly generated id
that is not stored, so a second orphan event receives a distinct id and the
two orphan events are not correlated with one another. -/
theorem orphan_thinking_events_get_distinct_ids (gen : Nat → String)
    (hinj : Function.Injective gen) (st : CompatState)
    (hnone : st.currentMessageId = none) (e1 e2 : BEvent)
    (h1 : isOrphanThinkingMsg e1.type = true)
    (h2 : isOrphanThinkingMsg e2.type = true) :
    ((transformEvent gen st e1).2).messageId = some (gen st.fresh)
    ∧ ((transformEvent gen st e1).1).currentMessageId = none
    ∧ ((transformEvent gen (transformEvent gen st e1).1 e2).2).messageId
        = some (gen (st.fresh + 1))
    ∧ ((transformEvent gen st e1).2).messageId
        ≠ ((transformEvent gen (transformEvent gen st e1).1 e2).2).messageId := by
  have hne : gen st.fresh ≠ gen (st.fresh + 1) := by
    intro hcontra
    have := hinj hcontra
    omega
  simp only [isOrphanThinkingMsg, Bool.or_eq_true, decide_eq_true_eq] at h1 h2
  rcases h1 with h1 | h1 <;> rcases h2 with h2 | h2 <;>
    simp_all [transformEvent, hnone]

/-- C10 witness: two concrete orphan events transformed with the injective id
supply `genA` from the reset state receive the distinct ids `genA 0` and
`genA 1`. -/
theorem orphan_thinking_events_get_distinct_ids_witness :
    ((transformEvent genA initCompatState
        { type := "THINKING_TEXT_MESSAGE_CONTENT", delta := some "a" }).2).messageId
      = some (genA 0)
    ∧ ((transformEvent genA initCompatState
        { type := "THINKING_TEXT_MESSAGE_CONTENT", delta := some "a" }).1).currentMessageId
      = none
    ∧ ((transformEvent genA
        (transformEvent genA initCompatState
          { type := "THINKING_TEXT_MESSAGE_CONTENT", delta := some "a" }).1
        { type := "THINKING_TEXT_MESSAGE_END" }).2).messageId = some (genA (0 + 1))
    ∧ ((transformEvent genA initCompatState
        { type := "THINKING_TEXT_MESSAGE_CONTENT", delta := some "a" }).2).messageId
      ≠ ((transformEvent genA
        (transformEvent genA initCompatState
          { type := "THINKING_TEXT_MESSAGE_CONTENT", delta := some "a" }).1
        { type := "THINKING_TEXT_MESSAGE_END" }).2).messageId :=
  orphan_thinking_events_get_distinct_ids genA genA_injective initCompatState rfl
    { type := "THINKING_TEXT_MESSAGE_CONTENT", delta := some "a" }
    { type := "THINKING_TEXT_MESSAGE_END" } (by decide) (by decide)

theorem applyEvents_cons_silent (st st1 : AgentState) (b : Bool) (e : Event)
    (rest : List Event) (hstep : applyEvent st e = .ok ⟨st1, [], b⟩) :
    applyEvents st (e :: rest) = applyEvents st1 rest := by
  simp only [applyEvents, hstep]
  cases hrec : applyEvents st1 rest with
  | error msg => rfl
  | ok p => cases p; rfl

/-- C1: for every message id m, a TOOL_CALL_START with parentMessageId m
followed by a TEXT_MESSAGE_START with messageId m and subsequent content
events yields exactly one message with id m, carrying both the tool-call
descriptor and the streamed text content; no second message with id m is
created. -/
theorem tool_call_then_text_start_yields_one_message (msgs : List Msg) (n : Nat)
    (m tcid name : String) (ds : List String)
    (h : ∀ x ∈ msgs, x.id ≠ m) :
    ∃ fin : AgentState,
      applyEvents ⟨msgs, n⟩
        (Event.toolCallStart tcid name (some m) :: Event.textMessageStart m Role.assistant ::
          ds.map (Event.textMessageContent m)) = .ok (fin, [])
      ∧ fin.messages.filter (fun x => x.id = m) =
          [{ joinMsg m tcid name with content := concatAll ds }] := by
  have hfalse : hasMsg msgs m = false := (hasMsg_eq_false_iff msgs m).mpr h
  have h1 : applyEvent ⟨msgs, n⟩ (Event.toolCallStart tcid name (some m)) =
      .ok ⟨⟨msgs ++ [joinMsg m tcid name], n⟩, [], true⟩ := by
    have hc : hasMsg msgs ((some m).getD ("generated-" ++ toString n)) = false := hfalse
    simp only [applyEvent, hc, Bool.false_eq_true, if_false]
    rfl
  have hmemT : joinMsg m tcid name ∈ msgs ++ [joinMsg m tcid name] := by
    simp
  have hhasT : hasMsg (msgs ++ [joinMsg m tcid name]) m = true :=
    hasMsg_of_mem _ _ _ hmemT rfl
  have h2 : applyEvent ⟨msgs ++ [joinMsg m tcid name], n⟩
        (Event.textMessageStart m Role.assistant) =
      .ok ⟨⟨msgs ++ [joinMsg m tcid name], n⟩, [], false⟩ := by
    simp only [applyEvent, hhasT, if_true]
  have hfil0 : (msgs ++ [joinMsg m tcid name]).filter (fun x => x.id = m) =
      [joinMsg m tcid name] := by
    rw [List.filter_append, filter_id_eq_nil msgs m h]
    simp [joinMsg]
  obtain ⟨fin, hrun, hfil, hcnt⟩ :=
    applyEvents_content_fold true ds ⟨msgs ++ [joinMsg m tcid name], n⟩ m _ hfil0
  refine ⟨fin, ?_, ?_⟩
  · rw [applyEvents_cons_silent _ _ _ _ _ h1, applyEvents_cons_silent _ _ _ _ _ h2]
    exact hrun
  · rw [hfil]
    have hc0 : (joinMsg m tcid name).content = "" := rfl
    rw [hc0, str_empty_append]

/-- C1 witness: the idempotent message join evaluated from the empty state at
concrete ids and deltas. -/
theorem tool_call_then_text_start_yields_one_message_witness :
    ∃ fin : AgentState,
      applyEvents ⟨[], 0⟩
        (Event.toolCallStart "call_123" "updateWorkingMemory" (some "m1") ::
          Event.textMessageStart "m1" Role.assistant ::
          ["Here is ", "the response"].map (Event.textMessageContent "m1")) = .ok (fin, [])
      ∧ fin.messages.filter (fun x => x.id = "m1") =
          [{ joinMsg "m1" "call_123" "updateWorkingMemory" with
              content := concatAll ["Here is ", "the response"] }] :=
  tool_call_then_text_start_yields_one_message [] 0 "m1" "call_123" "updateWorkingMemory"
    ["Here is ", "the response"] (by simp)

/-- C5: for every sequence of content deltas applied to the same existing
message id, text or reasoning, the final content of that message is the
concatenation of the deltas in arrival order. -/
theorem content_deltas_accumulate_in_order (msgs : List Msg) (n : Nat) (m : String)
    (msg0 : Msg) (ds : List String)
    (h : msgs.filter (fun x => x.id = m) = [msg0]) (hc : msg0.content = "") :
    (∃ fin : AgentState,
      applyEvents ⟨msgs, n⟩ (ds.map (Event.textMessageContent m)) = .ok (fin, [])
      ∧ fin.messages.filter (fun x => x.id = m) = [{ msg0 with content := concatAll ds }])
    ∧ (∃ fin : AgentState,
      applyEvents ⟨msgs, n⟩ (ds.map (Event.reasoningMessageContent m)) = .ok (fin, [])
      ∧ fin.messages.filter (fun x => x.id = m) = [{ msg0 with content := concatAll ds }]) := by
  constructor
  · obtain ⟨fin, hrun, hfil, _⟩ := applyEvents_content_fold true ds ⟨msgs, n⟩ m msg0 h
    refine ⟨fin, hrun, ?_⟩
    rw [hfil, hc]
    simp [str_empty_append]
  · obtain ⟨fin, hrun, hfil, _⟩ := applyEvents_content_fold false ds ⟨msgs, n⟩ m msg0 h
    refine ⟨fin, hrun, ?_⟩
    rw [hfil, hc]
    simp [str_empty_append]

/-- C5 witness: accumulation evaluated at a concrete message and three
concrete deltas. -/
theorem content_deltas_accumulate_in_order_witness :
    (∃ fin : AgentState,
      applyEvents ⟨[newMsg "r1" Role.reasoning], 0⟩
          (["Let me ", "think about ", "this."].map (Event.textMessageContent "r1")) =
        .ok (fin, [])
      ∧ fin.messages.filter (fun x => x.id = "r1") =
          [{ newMsg "r1" Role.reasoning with
              content := concatAll ["Let me ", "think about ", "this."] }])
    ∧ (∃ fin : AgentState,
      applyEvents ⟨[newMsg "r1" Role.reasoning], 0⟩
          (["Let me ", "think about ", "this."].map (Event.reasoningMessageContent "r1")) =
        .ok (fin, [])
      ∧ fin.messages.filter (fun x => x.id = "r1") =
          [{ newMsg "r1" Role.reasoning with
              content := concatAll ["Let me ", "think about ", "this."] }]) :=
  content_deltas_accumulate_in_order [newMsg "r1" Role.reasoning] 0 "r1"
    (newMsg "r1" Role.reasoning) ["Let me ", "think about ", "this."] (by decide) rfl

/-- C6: a content or end event, text or reasoning, referencing a message id
absent from the state never raises, never creates a message, and leaves the
state identical, logging only a warning. -/
theorem dangling_reference_is_noop (st : AgentState) (m d : String)
    (h : ∀ x ∈ st.messages, x.id ≠ m) :
    applyEvent st (Event.textMessageContent m d) =
      .ok ⟨st, ["TEXT_MESSAGE_CONTENT: No message found with ID " ++ m], false⟩
    ∧ applyEvent st (Event.textMessageEnd m) =
      .ok ⟨st, ["TEXT_MESSAGE_END: No message found with ID " ++ m], false⟩
    ∧ applyEvent st (Event.reasoningMessageContent m d) =
      .ok ⟨st, ["REASONING_MESSAGE_CONTENT: No message found with ID " ++ m], false⟩
    ∧ applyEvent st (Event.reasoningMessageEnd m) =
      .ok ⟨st, ["REASONING_MESSAGE_END: No message found with ID " ++ m], false⟩ := by
  have hf : hasMsg st.messages m = false := (hasMsg_eq_false_iff _ _).mpr h
  refine ⟨?_, ?_, ?_, ?_⟩ <;> simp [applyEvent, hf]

/-- C6 witness: the dangling-reference events evaluated from the empty state
at a concrete unknown id. -/
theorem dangling_reference_is_noop_witness :
    applyEvent ⟨[], 0⟩ (Event.textMessageContent "non-existent" "test") =
      .ok ⟨⟨[], 0⟩, ["TEXT_MESSAGE_CONTENT: No message found with ID " ++ "non-existent"], false⟩
    ∧ applyEvent ⟨[], 0⟩ (Event.textMessageEnd "non-existent") =
      .ok ⟨⟨[], 0⟩, ["TEXT_MESSAGE_END: No message found with ID " ++ "non-existent"], false⟩
    ∧ applyEvent ⟨[], 0⟩ (Event.reasoningMessageContent "non-existent" "test") =
      .ok ⟨⟨[], 0⟩,
           ["REASONING_MESSAGE_CONTENT: No message found with ID " ++ "non-existent"], false⟩
    ∧ applyEvent ⟨[], 0⟩ (Event.reasoningMessageEnd "non-existent") =
      .ok ⟨⟨[], 0⟩, ["REASONING_MESSAGE_END: No message found with ID " ++ "non-existent"], false⟩ :=
  dangling_reference_is_noop ⟨[], 0⟩ "non-existent" "test" (by simp)

/-- C7: a chunk-kind event, text-message, tool-call or reasoning-message,
reaching the reducer directly always raises a descriptive error and performs
no state mutation. -/
theorem chunk_events_always_raise (st : AgentState) (mid d tcid : Option String) :
    applyEvent st (Event.textMessageChunk mid d) =
      .error "TEXT_MESSAGE_CHUNK must be transformed before being applied"
    ∧ applyEvent st (Event.toolCallChunk tcid d) =
      .error "TOOL_CALL_CHUNK must be transformed before being applied"
    ∧ applyEvent st (Event.reasoningMessageChunk mid d) =
      .error "REASONING_MESSAGE_CHUNK must be transformed before being applied" :=
  ⟨rfl, rfl, rfl⟩

/-- C8: if any subscriber signals stop-propagation for a message-start event,
no message with that id is added to the state by that event, the stream keeps
running over the remaining events from the unchanged state, and every
registered subscriber is still notified of the event. -/
theorem stop_propagation_suppresses_message_start (subs : List Subscriber)
    (st : AgentState) (rest : List Event) (e : Event) (m : String) (r : Role)
    (_he : e = Event.reasoningMessageStart m ∨ e = Event.textMessageStart m r)
    (hstop : ∃ s ∈ subs, s e = true) :
    applyEventsWithSubs subs st (e :: rest) =
      (applyEventsWithSubs subs st rest).map
        (fun p => (p.1, subscriberVerdicts subs e :: p.2))
    ∧ (subscriberVerdicts subs e).length = subs.length := by
  obtain ⟨s, hs, hse⟩ := hstop
  have hany : (subscriberVerdicts subs e).any id = true := by
    simp only [subscriberVerdicts, List.any_eq_true]
    exact ⟨s e, List.mem_map_of_mem _ hs, hse⟩
  constructor
  · simp only [applyEventsWithSubs, applyEventWithSubs, hany, if_true]
    cases hrec : applyEventsWithSubs subs st rest with
    | error msg => rfl
    | ok p => cases p; rfl
  · simp [subscriberVerdicts]

/-- C8 witness: a single always-stopping subscriber suppresses a concrete
reasoning-message-start from the empty state while its verdict is recorded. -/
theorem stop_propagation_suppresses_message_start_witness :
    applyEventsWithSubs [fun _ => true] ⟨[], 0⟩ [Event.reasoningMessageStart "r1"] =
      (applyEventsWithSubs [fun _ => true] ⟨[], 0⟩ []).map
        (fun p => (p.1, subscriberVerdicts [fun _ => true] (Event.reasoningMessageStart "r1") :: p.2))
    ∧ (subscriberVerdicts [fun _ => true] (Event.reasoningMessageStart "r1")).length =
        ([fun _ => true] : List Subscriber).length :=
  stop_propagation_suppresses_message_start [fun _ => true] ⟨[], 0⟩ []
    (Event.reasoningMessageStart "r1") "r1" Role.assistant (Or.inl rfl)
    ⟨fun _ => true, by simp, rfl⟩

theorem toUpper_ne_underscore (c : Char) (h : c ≠ '_') : c.toUpper ≠ '_' := by
  simp only [Char.toUpper]
  split
  case isTrue hcond =>
    obtain ⟨h1, h2⟩ := hcond
    generalize hn : Char.toNat c = n at h1 h2
    interval_cases n <;> decide
  case isFalse _ => exact h

theorem splitUnderscoreAux_ne_nil (l cur : List Char) :
    splitUnderscoreAux l cur ≠ [] := by
  induction l generalizing cur with
  | nil => simp [splitUnderscoreAux]
  | cons c rest ih =>
      rw [splitUnderscoreAux]
      by_cases hc : c = '_'
      · simp [hc]
      · simp only [hc, if_false]
        exact ih _

theorem splitUnderscoreAux_parts (l cur : List Char) (hcur : ∀ c ∈ cur, c ≠ '_') :
    ∀ part ∈ splitUnderscoreAux l cur, ∀ c ∈ part, c ≠ '_' := by
  induction l generalizing cur with
  | nil =>
      intro part hpart c hcp
      simp only [splitUnderscoreAux, List.mem_singleton] at hpart
      subst hpart
      exact hcur c (List.mem_reverse.mp hcp)
  | cons a rest ih =>
      intro part hpart c hcp
      rw [splitUnderscoreAux] at hpart
      by_cases ha : a = '_'
      · rw [if_pos ha] at hpart
        rcases List.mem_cons.mp hpart with hcurpart | hrec
        · subst hcurpart
          exact hcur c (List.mem_reverse.mp hcp)
        · exact ih [] (by simp) part hrec c hcp
      · rw [if_neg ha] at hpart
        refine ih (a :: cur) ?_ part hpart c hcp
        intro x hx
        rcases List.mem_cons.mp hx with hxa | hxc
        · subst hxa; exact ha
        · exact hcur x hxc

theorem splitUnderscoreAux_length (l cur : List Char) :
    (splitUnderscoreAux l cur).length = l.count '_' + 1 := by
  induction l generalizing cur with
  | nil => simp [splitUnderscoreAux]
  | cons a rest ih =>
      rw [splitUnderscoreAux]
      by_cases ha : a = '_'
      · simp [ha, ih, List.count_cons]
      · simp [ha, ih, List.count_cons]

theorem splitUnderscoreAux_last (l : List Char) (hne : l ≠ [])
    (h : l.getLast? ≠ some '_') :
    ∀ cur, ∃ ps p, splitUnderscoreAux l cur = ps ++ [p] ∧ p ≠ [] := by
  induction l with
  | nil => exact absurd rfl hne
  | cons a rest ih =>
      intro cur
      cases rest with
      | nil =>
          have ha : a ≠ '_' := by
            simpa using h
          refine ⟨[], (a :: cur).reverse, ?_, by simp⟩
          rw [splitUnderscoreAux, if_neg ha, splitUnderscoreAux]
          simp
      | cons b rest2 =>
          have hrec : (b :: rest2).getLast? ≠ some '_' := by
            rwa [List.getLast?_cons_cons] at h
          by_cases ha : a = '_'
          · obtain ⟨ps, p, hsp, hp⟩ := ih (by simp) hrec []
            refine ⟨cur.reverse :: ps, p, ?_, hp⟩
            rw [splitUnderscoreAux, if_pos ha, hsp]
            rfl
          · obtain ⟨ps, p, hsp, hp⟩ := ih (by simp) hrec (a :: cur)
            refine ⟨ps, p, ?_, hp⟩
            rw [splitUnderscoreAux, if_neg ha, hsp]

theorem dropTrailingEmpties_last_ne (ps : List String) (p : String) (hp : p ≠ "") :
    dropTrailingEmpties (ps ++ [p]) = ps ++ [p] := by
  rw [dropTrailingEmpties, List.reverse_append]
  simp only [List.reverse_cons, List.reverse_nil, List.nil_append, List.singleton_append]
  rw [List.dropWhile_cons_of_neg (by simpa using hp)]
  simp

theorem string_mk_ne_empty (l : List Char) (h : l ≠ []) : String.mk l ≠ "" := by
  intro hcon
  exact h (congrArg String.data hcon)

theorem camelizeParts_cons_append (k a b : String) (rest : List String) :
    camelizeParts k (a :: (rest ++ [b])) = a ++ joinCapitalized (rest ++ [b]) := by
  cases rest <;> rfl

theorem noUnderscoreIn_append (a b : String) :
    noUnderscoreIn (a ++ b) = (noUnderscoreIn a && noUnderscoreIn b) := by
  simp [noUnderscoreIn, String.data_append, List.all_append]

theorem capitalizePart_no_underscore (p : String) (hp : ∀ c ∈ p.data, c ≠ '_') :
    noUnderscoreIn (capitalizePart p) = true := by
  rw [capitalizePart]
  cases hd : p.data with
  | nil => rfl
  | cons c cs =>
      simp only [noUnderscoreIn, List.all_eq_true, decide_eq_true_eq]
      intro x hx
      rcases List.mem_cons.mp hx with hxu | hxc
      · subst hxu
        exact toUpper_ne_underscore c (hp c (by rw [hd]; exact List.mem_cons_self c cs))
      · exact hp x (by rw [hd]; exact List.mem_cons_of_mem c hxc)

theorem joinCapitalized_no_underscore (parts : List String)
    (h : ∀ q ∈ parts, ∀ c ∈ q.data, c ≠ '_') :
    noUnderscoreIn (joinCapitalized parts) = true := by
  induction parts with
  | nil => rfl
  | cons q qs ih =>
      rw [joinCapitalized, noUnderscoreIn_append]
      rw [capitalizePart_no_underscore q (h q (List.mem_cons_self q qs)),
        ih (fun x hx => h x (List.mem_cons_of_mem q hx))]
      rfl

theorem camelizeKey_no_underscore (k : String) (h : noTrailingUnderscore k = true) :
    noUnderscoreIn (camelizeKey k) = true := by
  cases hk0 : k.data with
  | nil =>
      cases k with
      | mk d =>
          simp only [String.data] at hk0
          subst hk0
          decide
  | cons c0 cs0 =>
      have hkne : k.data ≠ [] := by rw [hk0]; simp
      have hlast : k.data.getLast? ≠ some '_' := by
        rw [noTrailingUnderscore] at h
        cases hg : k.data.getLast? with
        | none => simp
        | some c =>
            rw [hg] at h
            simp only [decide_eq_true_eq] at h
            simpa using h
      obtain ⟨ps, p, hsplit, hpne⟩ := splitUnderscoreAux_last k.data hkne hlast []
      have hmkne : String.mk p ≠ "" := string_mk_ne_empty p hpne
      have hrs : rubySplitUnderscore k = (ps.map String.mk) ++ [String.mk p] := by
        rw [rubySplitUnderscore, hsplit, List.map_append]
        simp only [List.map_cons, List.map_nil]
        exact dropTrailingEmpties_last_ne _ _ hmkne
      have hparts := splitUnderscoreAux_parts k.data [] (by simp)
      rw [hsplit] at hparts
      cases ps with
      | nil =>
          have hlen := splitUnderscoreAux_length k.data []
          rw [hsplit] at hlen
          have hcount : k.data.count '_' = 0 := by simpa using hlen.symm
          have hnone : '_' ∉ k.data := List.count_eq_zero.mp hcount
          have hck : camelizeKey k = k := by
            rw [camelizeKey, hrs]
            rfl
          rw [hck]
          simp only [noUnderscoreIn, List.all_eq_true, decide_eq_true_eq]
          intro c hc hcontra
          exact hnone (hcontra ▸ hc)
      | cons q qs =>
          have hck : camelizeKey k =
              String.mk q ++ joinCapitalized (qs.map String.mk ++ [String.mk p]) := by
            rw [camelizeKey, hrs, List.map_cons, List.cons_append,
              camelizeParts_cons_append]
          rw [hck, noUnderscoreIn_append]
          have hq : noUnderscoreIn (String.mk q) = true := by
            simp only [noUnderscoreIn, List.all_eq_true, decide_eq_true_eq]
            intro c hc
            exact hparts q (by simp) c hc
          have hjoin : noUnderscoreIn (joinCapitalized (qs.map String.mk ++ [String.mk p]))
              = true := by
            refine joinCapitalized_no_underscore _ ?_
            intro r hr c hc
            rcases List.mem_append.mp hr with hrq | hrp
            · obtain ⟨q1, hq1, hq1e⟩ := List.mem_map.mp hrq
              subst hq1e
              exact hparts q1 (by simp [hq1]) c hc
            · have hre : r = String.mk p := by simpa using hrp
              subst hre
              exact hparts p (by simp) c hc
          rw [hq, hjoin]
          rfl

theorem deepCompact_isNull (v : JValue) : (deepCompact v).isNull = v.isNull := by
  cases v <;> rfl

theorem transform_isNull (v : JValue) :
    (deepTransformKeysToCamel v).isNull = v.isNull := by
  cases v <;> rfl

mutual

theorem deepCompact_noNull : ∀ v : JValue, noNullInside (deepCompact v) = true
  | .null => rfl
  | .str _ => rfl
  | .num _ => rfl
  | .bool _ => rfl
  | .arr xs => by
      simp only [deepCompact, noNullInside]
      exact deepCompactArr_noNull xs
  | .obj fs => by
      simp only [deepCompact, noNullInside]
      exact deepCompactObj_noNull fs

theorem deepCompactArr_noNull : ∀ xs : List JValue,
    noNullInsideArr (deepCompactArr xs) = true
  | [] => rfl
  | v :: vs => by
      cases v with
      | null =>
          simp only [deepCompactArr]
          exact deepCompactArr_noNull vs
      | str s =>
          simp only [deepCompactArr, noNullInsideArr]
          rw [deepCompact_noNull (JValue.str s), deepCompactArr_noNull vs]
          rfl
      | num n =>
          simp only [deepCompactArr, noNullInsideArr]
          rw [deepCompact_noNull (JValue.num n), deepCompactArr_noNull vs]
          rfl
      | bool b =>
          simp only [deepCompactArr, noNullInsideArr]
          rw [deepCompact_noNull (JValue.bool b), deepCompactArr_noNull vs]
          rfl
      | arr ys =>
          simp only [deepCompactArr, noNullInsideArr]
          rw [deepCompact_noNull (JValue.arr ys), deepCompactArr_noNull vs]
          rfl
      | obj gs =>
          simp only [deepCompactArr, noNullInsideArr]
          rw [deepCompact_noNull (JValue.obj gs), deepCompactArr_noNull vs]
          rfl

theorem deepCompactObj_noNull : ∀ fs : List (String × JValue),
    noNullInsideObj (deepCompactObj fs) = true
  | [] => rfl
  | (k, v) :: fs => by
      cases v with
      | null =>
          simp only [deepCompactObj]
          exact deepCompactObj_noNull fs
      | str s =>
          simp only [deepCompactObj, noNullInsideObj]
          rw [deepCompact_noNull (JValue.str s), deepCompactObj_noNull fs]
          rfl
      | num n =>
          simp only [deepCompactObj, noNullInsideObj]
          rw [deepCompact_noNull (JValue.num n), deepCompactObj_noNull fs]
          rfl
      | bool b =>
          simp only [deepCompactObj, noNullInsideObj]
          rw [deepCompact_noNull (JValue.bool b), deepCompactObj_noNull fs]
          rfl
      | arr ys =>
          simp only [deepCompactObj, noNullInsideObj]
          rw [deepCompact_noNull (JValue.arr ys), deepCompactObj_noNull fs]
          rfl
      | obj gs =>
          simp only [deepCompactObj, noNullInsideObj]
          rw [deepCompact_noNull (JValue.obj gs), deepCompactObj_noNull fs]
          rfl

end

mutual

theorem transform_noNull : ∀ v : JValue,
    noNullInside v = true → noNullInside (deepTransformKeysToCamel v) = true
  | .null, _ => rfl
  | .str _, _ => rfl
  | .num _, _ => rfl
  | .bool _, _ => rfl
  | .arr xs, h => by
      simp only [deepTransformKeysToCamel, noNullInside] at h ⊢
      exact camelArr_noNull xs h
  | .obj fs, h => by
      simp only [deepTransformKeysToCamel, noNullInside] at h ⊢
      exact camelObj_noNull fs h

theorem camelArr_noNull : ∀ xs : List JValue,
    noNullInsideArr xs = true → noNullInsideArr (camelArr xs) = true
  | [], _ => rfl
  | v :: vs, h => by
      simp only [noNullInsideArr, Bool.and_eq_true] at h
      obtain ⟨⟨hn, hv⟩, hvs⟩ := h
      simp only [camelArr, noNullInsideArr, Bool.and_eq_true]
      refine ⟨⟨?_, transform_noNull v hv⟩, camelArr_noNull vs hvs⟩
      rw [transform_isNull]
      exact hn

theorem camelObj_noNull : ∀ fs : List (String × JValue),
    noNullInsideObj fs = true → noNullInsideObj (camelObj fs) = true
  | [], _ => rfl
  | (k, v) :: fs, h => by
      simp only [noNullInsideObj, Bool.and_eq_true] at h
      obtain ⟨⟨hn, hv⟩, hfs⟩ := h
      simp only [camelObj, noNullInsideObj, Bool.and_eq_true]
      refine ⟨⟨?_, transform_noNull v hv⟩, camelObj_noNull fs hfs⟩
      rw [transform_isNull]
      exact hn

end

mutual

theorem deepCompact_keysAll (p : String → Bool) : ∀ v : JValue,
    keysAll p v = true → keysAll p (deepCompact v) = true
  | .null, _ => rfl
  | .str _, _ => rfl
  | .num _, _ => rfl
  | .bool _, _ => rfl
  | .arr xs, h => by
      simp only [deepCompact, keysAll] at h ⊢
      exact deepCompactArr_keysAll p xs h
  | .obj fs, h => by
      simp only [deepCompact, keysAll] at h ⊢
      exact deepCompactObj_keysAll p fs h

theorem deepCompactArr_keysAll (p : String → Bool) : ∀ xs : List JValue,
    keysAllArr p xs = true → keysAllArr p (deepCompactArr xs) = true
  | [], _ => rfl
  | v :: vs, h => by
      simp only [keysAllArr, Bool.and_eq_true] at h
      obtain ⟨hv, hvs⟩ := h
      cases v with
      | null =>
          simp only [deepCompactArr]
          exact deepCompactArr_keysAll p vs hvs
      | str s =>
          simp only [deepCompactArr, keysAllArr, Bool.and_eq_true]
          exact ⟨deepCompact_keysAll p (JValue.str s) hv, deepCompactArr_keysAll p vs hvs⟩
      | num n =>
          simp only [deepCompactArr, keysAllArr, Bool.and_eq_true]
          exact ⟨deepCompact_keysAll p (JValue.num n) hv, deepCompactArr_keysAll p vs hvs⟩
      | bool b =>
          simp only [deepCompactArr, keysAllArr, Bool.and_eq_true]
          exact ⟨deepCompact_keysAll p (JValue.bool b) hv, deepCompactArr_keysAll p vs hvs⟩
      | arr ys =>
          simp only [deepCompactArr, keysAllArr, Bool.and_eq_true]
          exact ⟨deepCompact_keysAll p (JValue.arr ys) hv, deepCompactArr_keysAll p vs hvs⟩
      | obj gs =>
          simp only [deepCompactArr, keysAllArr, Bool.and_eq_true]
          exact ⟨deepCompact_keysAll p (JValue.obj gs) hv, deepCompactArr_keysAll p vs hvs⟩

theorem deepCompactObj_keysAll (p : String → Bool) : ∀ fs : List (String × JValue),
    keysAllObj p fs = true → keysAllObj p (deepCompactObj fs) = true
  | [], _ => rfl
  | (k, v) :: fs, h => by
      simp only [keysAllObj, Bool.and_eq_true] at h
      obtain ⟨⟨hk, hv⟩, hfs⟩ := h
      cases v with
      | null =>
          simp only [deepCompactObj]
          exact deepCompactObj_keysAll p fs hfs
      | str s =>
          simp only [deepCompactObj, keysAllObj, Bool.and_eq_true]
          exact ⟨⟨hk, deepCompact_keysAll p (JValue.str s) hv⟩,
            deepCompactObj_keysAll p fs hfs⟩
      | num n =>
          simp only [deepCompactObj, keysAllObj, Bool.and_eq_true]
          exact ⟨⟨hk, deepCompact_keysAll p (JValue.num n) hv⟩,
            deepCompactObj_keysAll p fs hfs⟩
      | bool b =>
          simp only [deepCompactObj, keysAllObj, Bool.and_eq_true]
          exact ⟨⟨hk, deepCompact_keysAll p (JValue.bool b) hv⟩,
            deepCompactObj_keysAll p fs hfs⟩
      | arr ys =>
          simp only [deepCompactObj, keysAllObj, Bool.and_eq_true]
          exact ⟨⟨hk, deepCompact_keysAll p (JValue.arr ys) hv⟩,
            deepCompactObj_keysAll p fs hfs⟩
      | obj gs =>
          simp only [deepCompactObj, keysAllObj, Bool.and_eq_true]
          exact ⟨⟨hk, deepCompact_keysAll p (JValue.obj gs) hv⟩,
            deepCompactObj_keysAll p fs hfs⟩

end

mutual

theorem transform_keysCamel : ∀ v : JValue,
    keysAll noTrailingUnderscore v = true →
    keysAll noUnderscoreIn (deepTransformKeysToCamel v) = true
  | .null, _ => rfl
  | .str _, _ => rfl
  | .num _, _ => rfl
  | .bool _, _ => rfl
  | .arr xs, h => by
      simp only [deepTransformKeysToCamel, keysAll] at h ⊢
      exact camelArr_keysCamel xs h
  | .obj fs, h => by
      simp only [deepTransformKeysToCamel, keysAll] at h ⊢
      exact camelObj_keysCamel fs h

theorem camelArr_keysCamel : ∀ xs : List JValue,
    keysAllArr noTrailingUnderscore xs = true →
    keysAllArr noUnderscoreIn (camelArr xs) = true
  | [], _ => rfl
  | v :: vs, h => by
      simp only [keysAllArr, Bool.and_eq_true] at h
      obtain ⟨hv, hvs⟩ := h
      simp only [camelArr, keysAllArr, Bool.and_eq_true]
      exact ⟨transform_keysCamel v hv, camelArr_keysCamel vs hvs⟩

theorem camelObj_keysCamel : ∀ fs : List (String × JValue),
    keysAllObj noTrailingUnderscore fs = true →
    keysAllObj noUnderscoreIn (camelObj fs) = true
  | [], _ => rfl
  | (k, v) :: fs, h => by
      simp only [keysAllObj, Bool.and_eq_true] at h
      obtain ⟨⟨hk, hv⟩, hfs⟩ := h
      simp only [camelObj, keysAllObj, Bool.and_eq_true]
      exact ⟨⟨camelizeKey_no_underscore k hk, transform_keysCamel v hv⟩,
        camelObj_keysCamel fs hfs⟩

end

theorem deepCompactObj_cons_notnull (k : String) (v : JValue)
    (fs : List (String × JValue)) (h : v.isNull = false) :
    deepCompactObj ((k, v) :: fs) = (k, deepCompact v) :: deepCompactObj fs := by
  cases v with
  | null => simp [JValue.isNull] at h
  | str s => rfl
  | num n => rfl
  | bool b => rfl
  | arr ys => rfl
  | obj gs => rfl

theorem mem_keys_deepCompactObj (fs : List (String × JValue)) (k : String)
    (val : JValue) (hmem : (k, val) ∈ fs) (hnn : val.isNull = false) :
    k ∈ (deepCompactObj fs).map Prod.fst := by
  induction fs with
  | nil => simp at hmem
  | cons head fs ih =>
      obtain ⟨k1, v1⟩ := head
      rcases List.mem_cons.mp hmem with hhead | htail
      · have hk1 : k1 = k := (Prod.mk.injEq _ _ _ _ ▸ hhead.symm).1
        have hv1 : v1 = val := (Prod.mk.injEq _ _ _ _ ▸ hhead.symm).2
        subst hk1
        subst hv1
        rw [deepCompactObj_cons_notnull _ _ _ hnn]
        simp
      · cases hv1 : v1.isNull with
        | true =>
            cases v1 with
            | null =>
                simp only [deepCompactObj]
                exact ih htail
            | str s => simp [JValue.isNull] at hv1
            | num n => simp [JValue.isNull] at hv1
            | bool b => simp [JValue.isNull] at hv1
            | arr ys => simp [JValue.isNull] at hv1
            | obj gs => simp [JValue.isNull] at hv1
        | false =>
            rw [deepCompactObj_cons_notnull _ _ _ hv1]
            simp only [List.map_cons, List.mem_cons]
            exact Or.inr (ih htail)

theorem camelObj_keys (gs : List (String × JValue)) :
    (camelObj gs).map Prod.fst = (gs.map Prod.fst).map camelizeKey := by
  induction gs with
  | nil => rfl
  | cons head gs ih =>
      obtain ⟨k, v⟩ := head
      simp [camelObj, ih]

/-- C9: as_json produces camelCase keys (no underscores, given the models'
snake_case keys) and recursively omits every nil-valued key while keeping the
non-nil ones; the SSE encoder frames the JSON as `data: <json>` followed by
two newlines; and an event constructed with only a type serializes to a JSON
object containing only the type key. -/
theorem as_json_camelizes_compacts_and_encodes :
    (∀ v : JValue, keysAll noTrailingUnderscore v = true →
      keysAll noUnderscoreIn (asJson v) = true)
    ∧ (∀ v : JValue, noNullInside (asJson v) = true)
    ∧ (∀ (fs : List (String × JValue)) (k : String) (val : JValue),
        (k, val) ∈ fs → val.isNull = false →
        camelizeKey k ∈ objKeys (asJson (JValue.obj fs)))
    ∧ (∀ event : JValue, encode event = "data: " ++ dumpJson (asJson event) ++ "\n\n")
    ∧ asJson (baseEventToH "RAW" JValue.null JValue.null) =
        JValue.obj [("type", JValue.str "RAW")]
    ∧ encode (baseEventToH "RAW" JValue.null JValue.null) =
        "data: \x7b\"type\":\"RAW\"\x7d\n\n" := by
  refine ⟨?_, ?_, ?_, fun _ => rfl, rfl, ?_⟩
  · intro v h
    exact transform_keysCamel (deepCompact v) (deepCompact_keysAll _ v h)
  · intro v
    have h1 : noNullInside (deepCompact v) = true := deepCompact_noNull v
    exact transform_noNull (deepCompact v) h1
  · intro fs k val hmem hnn
    have h1 : k ∈ (deepCompactObj fs).map Prod.fst :=
      mem_keys_deepCompactObj fs k val hmem hnn
    have h2 : objKeys (asJson (JValue.obj fs)) =
        ((deepCompactObj fs).map Prod.fst).map camelizeKey := by
      simp only [asJson, deepCompact, deepTransformKeysToCamel, objKeys]
      exact camelObj_keys _
    rw [h2]
    exact List.mem_map_of_mem camelizeKey h1
  · rfl

/-- C9 witness: the camelization and key-preservation components evaluated at
a concrete snake_case event hash. -/
theorem as_json_camelizes_compacts_and_encodes_witness :
    keysAll noUnderscoreIn
      (asJson (JValue.obj [("type", JValue.str "RAW"), ("raw_event", JValue.null),
        ("message_id", JValue.str "m1")])) = true
    ∧ camelizeKey "message_id" ∈
        objKeys (asJson (JValue.obj [("type", JValue.str "RAW"),
          ("raw_event", JValue.null), ("message_id", JValue.str "m1")])) :=
  ⟨as_json_camelizes_compacts_and_encodes.1
      (JValue.obj [("type", JValue.str "RAW"), ("raw_event", JValue.null),
        ("message_id", JValue.str "m1")]) (by decide),
   as_json_camelizes_compacts_and_encodes.2.2.1
      [("type", JValue.str "RAW"), ("raw_event", JValue.null),
        ("message_id", JValue.str "m1")] "message_id" (JValue.str "m1")
      (by simp) rfl⟩

end AgUi
